import Mathlib

/-!
# Verification of the stock ticker resolution engine

This file is a shallow embedding, in Lean 4, of the resolution engine of the
`my-little-barebone-app` repository: the `StockTickerParser` pipeline of
`src/services/NLPEntityService.ts` (candidate extraction, exact symbol lookup,
fuzzy matching, cross-listing disambiguation, threshold and location filtering,
per-company deduplication), the `TickerExtractorService` of
`src/services/tickerExtractorService.ts`, and the `StockFuzeMatchingService` of
`src/services/StockFuzeMatchingService.ts`.

Strings are modelled as `List Char`; JavaScript numbers are modelled as `ℚ`.
The third-party Fuse.js search engine is an external collaborator and is
modelled as an explicit function parameter (an oracle producing scored hits),
everything else is translated from the TypeScript source.
-/

namespace TickerRes

/-! ## JavaScript-style string primitives over `List Char` -/

/-- Strings of the embedded program, as lists of characters. -/
abbrev Str := List Char

/-- Coerce a Lean string literal to the embedded string type. -/
def chars (s : String) : Str := s.toList

/-- JS `String.prototype.toUpperCase` (ASCII fragment). -/
def upper (l : Str) : Str := l.map Char.toUpper

/-- JS `String.prototype.toLowerCase` (ASCII fragment). -/
def lower (l : Str) : Str := l.map Char.toLower

/-- JS `haystack.includes(needle)`: substring containment. -/
def containsSub (needle hay : Str) : Bool :=
  hay.tails.any (fun t => needle.isPrefixOf t)

/-- JS `String.prototype.trim`. -/
def jsTrim (l : Str) : Str :=
  ((l.dropWhile Char.isWhitespace).reverse.dropWhile Char.isWhitespace).reverse

/-- One step of JS `split(/\s+/)`: `inWs` records whether we are inside a run of
whitespace that already emitted its preceding piece. -/
def splitWsGo : Bool → Str → Str → List Str
  | _, [], cur => [cur.reverse]
  | inWs, c :: rest, cur =>
    if c.isWhitespace then
      if inWs then splitWsGo true rest cur
      else cur.reverse :: splitWsGo true rest []
    else splitWsGo false rest (c :: cur)

/-- JS `s.split(/\s+/)`: split on maximal whitespace runs, keeping the empty
boundary pieces JS produces when the string starts or ends with whitespace. -/
def splitWs (l : Str) : List Str := splitWsGo false l []

/-- JS `\w` character class: `[A-Za-z0-9_]`. -/
def isWordChar (c : Char) : Bool :=
  (('a' ≤ c && c ≤ 'z') || ('A' ≤ c && c ≤ 'Z') || ('0' ≤ c && c ≤ '9') || c == '_')

/-- `[A-Z]`. -/
def isUpperAZ (c : Char) : Bool := 'A' ≤ c && c ≤ 'Z'

/-- `\d`. -/
def isDigit09 (c : Char) : Bool := '0' ≤ c && c ≤ '9'

/-- Case-insensitive literal-prefix test, used by global case-insensitive
regex replacement. -/
def ciPrefix (term l : Str) : Bool := (lower term).isPrefixOf (lower l)

/-- Fuel-driven scan of JS `input.replace(new RegExp(term, "gi"), " ")` for a
literal `term`: leftmost, non-overlapping, case-insensitive occurrences each
become a single space.  The fuel is the length of the scanned list, which
keeps the recursion structural; it never runs out. -/
def replaceAllCIGo (term : Str) : Nat → Str → Str
  | _, [] => []
  | 0, l => l
  | fuel + 1, c :: rest =>
    if ciPrefix term (c :: rest) then
      ' ' :: replaceAllCIGo term fuel (rest.drop (term.length - 1))
    else
      c :: replaceAllCIGo term fuel rest

/-- JS `input.replace(new RegExp(term, "gi"), " ")` for a literal `term`. -/
def replaceAllCI (term l : Str) : Str := replaceAllCIGo term l.length l

/-- First-occurrence deduplication, JS `[...new Set(xs)]`. -/
def dedupFirstGo (seen : List Str) : List Str → List Str
  | [] => []
  | x :: xs =>
    if seen.contains x then dedupFirstGo seen xs
    else x :: dedupFirstGo (x :: seen) xs

/-- JS `[...new Set(xs)]`: keep the first occurrence of each string. -/
def dedupFirst (l : List Str) : List Str := dedupFirstGo [] l

/-- JS `Array.prototype.indexOf` (−1 when absent). -/
def jsIndexOfGo (x : Str) (i : Int) : List Str → Int
  | [] => -1
  | y :: ys => if y == x then i else jsIndexOfGo x (i + 1) ys

/-- JS `l.indexOf(x)`. -/
def jsIndexOf (x : Str) (l : List Str) : Int := jsIndexOfGo x 0 l

/-- Insert `a` into `l`, placing it before the first element `b` with
`cmp a b < 0` and after all elements that compare equal: together with
`sortCmp` this is the stable sort JS `Array.prototype.sort(cmp)` performs
for a consistent comparator. -/
def insertCmp {α : Type} (cmp : α → α → ℚ) (a : α) : List α → List α
  | [] => [a]
  | b :: bs => if cmp a b < 0 then a :: b :: bs else b :: insertCmp cmp a bs

/-- Stable sort by a JS-style numeric comparator. -/
def sortCmp {α : Type} (cmp : α → α → ℚ) (l : List α) : List α :=
  l.foldl (fun acc a => insertCmp cmp a acc) []

/-! ## Data model of `StockTickerParser` (`src/services/NLPEntityService.ts`)

`interface StockInfo { symbol; name; exchangeShortName }` and
`interface MatchResult { stock; confidence }`. -/

/-- Stock information used internally by the parser. -/
structure StockInfo where
  symbol : Str
  name : Str
  exchangeShortName : Str
deriving DecidableEq

/-- A search match: a stock together with a confidence score. -/
structure MatchResult where
  stock : StockInfo
  confidence : ℚ
deriving DecidableEq

instance : Inhabited MatchResult := ⟨⟨⟨[], [], []⟩, 0⟩⟩

/-- The Fuse.js search engine of the parser, abstracted: for a query string it
returns the scored hits, in engine order (`includeScore: true`, so each hit
carries its score; `score?: number` may be absent in the interface). -/
abbrev FuzzyEngine := Str → List (StockInfo × Option ℚ)

/-! ## Candidate extraction (`StockTickerParser.extractCandidates`) -/

/-- The `specialTermsToIgnore` list (verbatim, including the duplicate). -/
def specialTermsToIgnore : List Str :=
  [chars "Find me", chars "uptrend", chars "stock price", chars "compare",
   chars "Hong Kong stock", chars "uptrend", chars "thoughts on",
   chars "what about", chars "how is", chars "tell me about"]

/-- `/^[A-Z]{1,5}$/`: standard US tickers. -/
def isStandardTicker (t : Str) : Bool :=
  decide (1 ≤ t.length) && decide (t.length ≤ 5) && t.all isUpperAZ

/-- `token.startsWith("$") && token.length > 2`. -/
def isTickerWithDollar (t : Str) : Bool :=
  (chars "$").isPrefixOf t && decide (t.length > 2)

/-- `/^\d+\.[A-Z]{2}$/`: tickers with market extensions such as `0005.HK`. -/
def isHKTicker (t : Str) : Bool :=
  let ds := t.takeWhile isDigit09
  let rest := t.drop ds.length
  decide (ds ≠ []) &&
    (match rest with
     | ['.', a, b] => isUpperAZ a && isUpperAZ b
     | _ => false)

/-- `/^\d{6}\.[A-Z]{2}$/`: China A-share tickers such as `600000.SS`. -/
def isChinaATicker (t : Str) : Bool :=
  let ds := t.takeWhile isDigit09
  let rest := t.drop ds.length
  decide (ds.length = 6) &&
    (match rest with
     | ['.', a, b] => isUpperAZ a && isUpperAZ b
     | _ => false)

/-- `/^[A-Z]{1,4}\.[A-Z]$/`: class tickers such as `BRK.A`. -/
def isClassTicker (t : Str) : Bool :=
  let us := t.takeWhile isUpperAZ
  let rest := t.drop us.length
  decide (1 ≤ us.length) && decide (us.length ≤ 4) &&
    (match rest with
     | ['.', a] => isUpperAZ a
     | _ => false)

/-- The combined potential-ticker test of `extractCandidates`. -/
def isPotentialTicker (t : Str) : Bool :=
  isStandardTicker t || isTickerWithDollar t || isHKTicker t ||
    isChinaATicker t || isClassTicker t

/-- `StockTickerParser.extractCandidates`: strip the special phrases, keep word
characters, whitespace and dots, split into tokens of length > 1, collect the
ticker-shaped tokens (with `$` stripped, first occurrence kept), and return the
tickers followed by all tokens. -/
def extractCandidates (input : Str) : List Str :=
  let cleanInput := specialTermsToIgnore.foldl (fun s t => replaceAllCI t s) input
  let tokens :=
    (splitWs (cleanInput.map (fun c =>
      if isWordChar c || c.isWhitespace || c == '.' then c else ' '))).filter
      (fun t => decide (t.length > 1))
  let potentialTickers := tokens.filter isPotentialTicker
  let cleanTickers := dedupFirst (potentialTickers.map (fun t =>
    if (chars "$").isPrefixOf t then t.drop 1 else t))
  cleanTickers ++ tokens

/-! ## Matching (`StockTickerParser.parseQuery`) -/

/-- The `symbolMap` record built by `parseQuery`: assignment in list order with
later entries overriding earlier ones, so lookup finds the last stock carrying
the symbol. -/
def symbolLookup (stockList : List StockInfo) (c : Str) : Option StockInfo :=
  stockList.reverse.find? (fun s => s.symbol == c)

/-- `result.score ? 1 - result.score : 0.8`: a missing or zero score (both
falsy in JS) falls back to confidence 0.8. -/
def fuzzConf : Option ℚ → ℚ
  | some v => if v = 0 then 4 / 5 else 1 - v
  | none => 4 / 5

/-- Confidence of a whole-query-text hit:
`(result.score ? 1 - result.score : 0.8) * 0.9`. -/
def fullTextConf (sc : Option ℚ) : ℚ := fuzzConf sc * (9 / 10)

/-- Accumulator of `parseQuery`: the `results` array and the `seenSymbols`
set (kept as a list; only membership is used). -/
abbrev ParseAcc := List MatchResult × List Str

/-- The exact-match loop of `parseQuery`: a candidate present in the symbol map
pushes a confidence-1.0 match unless its symbol was already seen. -/
def exactPass (stockList : List StockInfo) (candidates : List Str) : ParseAcc :=
  candidates.foldl
    (fun acc c =>
      match symbolLookup stockList c with
      | some s =>
        if acc.2.contains s.symbol then acc
        else (acc.1 ++ [⟨s, 1⟩], acc.2 ++ [s.symbol])
      | none => acc)
    ([], [])

/-- The fuzzy-match loop of `parseQuery`: candidates that have an exact symbol
match are skipped; otherwise the engine hits (limited to `maxResults`) are
pushed with converted confidence, first occurrence of each symbol only. -/
def fuzzyPass (stockList : List StockInfo) (fuzzy : FuzzyEngine) (maxResults : Nat)
    (candidates : List Str) (init : ParseAcc) : ParseAcc :=
  candidates.foldl
    (fun acc c =>
      match symbolLookup stockList c with
      | some _ => acc
      | none =>
        ((fuzzy c).take maxResults).foldl
          (fun acc2 hit =>
            if acc2.2.contains hit.1.symbol then acc2
            else (acc2.1 ++ [⟨hit.1, fuzzConf hit.2⟩], acc2.2 ++ [hit.1.symbol]))
          acc)
    init

/-- The whole-input search of `parseQuery`: the full text is searched once, and
hits get the discounted full-text confidence. -/
def fullTextPass (fuzzy : FuzzyEngine) (maxResults : Nat) (input : Str)
    (acc : ParseAcc) : ParseAcc :=
  if input.length > 0 then
    ((fuzzy input).take maxResults).foldl
      (fun acc2 hit =>
        if acc2.2.contains hit.1.symbol then acc2
        else (acc2.1 ++ [⟨hit.1, fullTextConf hit.2⟩], acc2.2 ++ [hit.1.symbol]))
      acc
  else acc

/-- `StockTickerParser.parseQuery`: exact matches, then per-candidate fuzzy
matches, then a whole-input fuzzy search, sorted by descending confidence. -/
def parseQuery (stockList : List StockInfo) (fuzzy : FuzzyEngine) (input : Str)
    (maxResults : Nat) : List MatchResult :=
  let candidates := extractCandidates input
  let step1 := exactPass stockList candidates
  let step2 := fuzzyPass stockList fuzzy maxResults candidates step1
  let step3 := fullTextPass fuzzy maxResults input step2
  sortCmp (fun a b => b.confidence - a.confidence) step3.1

/-! ## Cross-listing disambiguation (`StockTickerParser.findStockTickers`) -/

/-- The `exchangeMap` of `findStockTickers`; an unknown location falls back to
`[]` (`exchangeMap[location] || []`). -/
def exchangeMap (location : Str) : List Str :=
  if location = chars "US" then
    [chars "NYSE", chars "NASDAQ", chars "CBOE", chars "AMEX", chars "OTC"]
  else if location = chars "HK" then [chars "HKSE"]
  else if location = chars "CN" then [chars "SHH", chars "SHZ"]
  else if location = chars "UK" then [chars "LSE"]
  else if location = chars "JP" then [chars "TSE"]
  else if location = chars "EU" then [chars "XETRA", chars "EURONEXT"]
  else []

/-- `primaryExchanges`: the more liquid markets preferred in global context. -/
def primaryExchanges : List Str :=
  [chars "NYSE", chars "NASDAQ", chars "HKSE", chars "LSE"]

/-- US exchange codes as listed in the hint branch and the final fallback. -/
def usExchanges : List Str :=
  [chars "NYSE", chars "NASDAQ", chars "CBOE", chars "AMEX", chars "OTC"]

/-- `hasHongKongHint`: case-insensitive `"hong kong"`/`"hk market"`, or the raw
input containing `".hk"`. -/
def hasHongKongHint (input : Str) : Bool :=
  containsSub (chars "hong kong") (lower input) ||
  containsSub (chars "hk market") (lower input) ||
  containsSub (chars ".hk") input

/-- `hasUSHint`: `"us market"`/`"nasdaq"`/`"nyse"`, or a `$` without a Hong
Kong hint. -/
def hasUSHint (input : Str) : Bool :=
  containsSub (chars "us market") (lower input) ||
  containsSub (chars "nasdaq") (lower input) ||
  containsSub (chars "nyse") (lower input) ||
  (containsSub (chars "$") input && !hasHongKongHint input)

/-- `hasChinaHint`: China/A-share vocabulary, or raw `".ss"`/`".sz"`. -/
def hasChinaHint (input : Str) : Bool :=
  containsSub (chars "china") (lower input) ||
  containsSub (chars "chinese") (lower input) ||
  containsSub (chars "a-share") (lower input) ||
  containsSub (chars "shanghai") (lower input) ||
  containsSub (chars "shenzhen") (lower input) ||
  containsSub (chars ".ss") input ||
  containsSub (chars ".sz") input

/-- An HKSE listing, or a symbol ending in `.HK`. -/
def isHKListing (r : MatchResult) : Bool :=
  r.stock.exchangeShortName == chars "HKSE" ||
    (chars ".HK").isSuffixOf r.stock.symbol

/-- A Shanghai/Shenzhen listing, or a symbol ending in `.SS`/`.SZ`. -/
def isCNListing (r : MatchResult) : Bool :=
  [chars "SHH", chars "SHZ"].contains r.stock.exchangeShortName ||
    (chars ".SS").isSuffixOf r.stock.symbol ||
    (chars ".SZ").isSuffixOf r.stock.symbol

/-- A listing on one of the US exchange codes. -/
def isUSListing (r : MatchResult) : Bool :=
  usExchanges.contains r.stock.exchangeShortName

/-- A listing on one of the primary exchanges. -/
def isPrimaryListing (r : MatchResult) : Bool :=
  primaryExchanges.contains r.stock.exchangeShortName

/-- The comparator producing `sortedListings`: listings whose symbol occurs as
a whitespace token of the uppercased query come first, then descending
confidence. -/
def listingCmp (inputTokens : List Str) (a b : MatchResult) : ℚ :=
  let aT := inputTokens.contains a.stock.symbol
  let bT := inputTokens.contains b.stock.symbol
  if aT && !bT then -1
  else if !aT && bT then 1
  else b.confidence - a.confidence

/-- The capped confidence boost `Math.min(cap, confidence * mult)`. -/
def cappedBoost (cap mult c : ℚ) : ℚ := min cap (c * mult)

/-- Apply the capped boost in place at the listed positions (the TypeScript
code mutates the shared `MatchResult` objects; positions stand for object
identity). -/
def boostAt (cap mult : ℚ) (idxs : List Nat) (arr : List MatchResult) :
    List MatchResult :=
  arr.enum.map (fun e =>
    if idxs.contains e.1 then
      { e.2 with confidence := cappedBoost cap mult e.2.confidence }
    else e.2)

/-- Positions of the elements satisfying `p`. -/
def idxWhere (p : MatchResult → Bool) (arr : List MatchResult) : List Nat :=
  (arr.enum.filter (fun e => p e.2)).map (fun e => e.1)

/-- Context shared by every company group in the cross-listing loop. -/
structure GroupCtx where
  inputTokens : List Str
  targetExchanges : List Str
  hkHint : Bool
  cnHint : Bool
  usHint : Bool
  location : Str

/-- The body of the `crossListingsMap.forEach` loop of `findStockTickers` for
one company group.  Returns the entries pushed onto `preferredResults` (with
their final, post-mutation confidences — pushed objects are shared with the
group, so boosts applied after a push are visible in the pushed entry) and the
final values of all group members (the post-call state of the shared
`results` objects).

The TypeScript branch order: explicit ticker mention (early return), requested
location (boost capped at 0.99, no return), Hong Kong / China / US market
hints (boost capped at 0.98, early return), `addedLocal` early return, then the
global fallback (primary exchanges capped at 0.95, else Hong Kong listings,
else everything with an uncapped 1.05 boost for US listings).  The fallback
condition `location === "global" || !addedExplicit` is always true there
because an explicit match returns early.

`processGroupHints` is the part of the loop body after the location check:
`doLocal` is the `addedLocal` flag, `pushes1` the positions already pushed by
the location branch, `arr1` the group state after the location boost. -/
def processGroupHints (ctx : GroupCtx) (doLocal : Bool) (pushes1 : List Nat)
    (arr1 : List MatchResult) : List MatchResult × List MatchResult :=
  if ctx.hkHint ∧ idxWhere isHKListing arr1 ≠ [] then
    let arr2 := boostAt (98 / 100) (6 / 5) (idxWhere isHKListing arr1) arr1
    ((pushes1 ++ idxWhere isHKListing arr1).map (fun i => arr2.getD i default), arr2)
  else if ctx.cnHint ∧ idxWhere isCNListing arr1 ≠ [] then
    let arr2 := boostAt (98 / 100) (6 / 5) (idxWhere isCNListing arr1) arr1
    ((pushes1 ++ idxWhere isCNListing arr1).map (fun i => arr2.getD i default), arr2)
  else if ctx.usHint ∧ idxWhere isUSListing arr1 ≠ [] then
    let arr2 := boostAt (98 / 100) (6 / 5) (idxWhere isUSListing arr1) arr1
    ((pushes1 ++ idxWhere isUSListing arr1).map (fun i => arr2.getD i default), arr2)
  else if doLocal then
    (pushes1.map (fun i => arr1.getD i default), arr1)
  else if idxWhere isPrimaryListing arr1 ≠ [] then
    let arr2 := boostAt (95 / 100) (21 / 20) (idxWhere isPrimaryListing arr1) arr1
    ((idxWhere isPrimaryListing arr1).map (fun i => arr2.getD i default), arr2)
  else if idxWhere isHKListing arr1 ≠ [] then
    ((idxWhere isHKListing arr1).map (fun i => arr1.getD i default), arr1)
  else
    let arrF := arr1.map (fun r =>
      if isUSListing r then { r with confidence := r.confidence * (21 / 20) }
      else r)
    (arrF, arrF)

/-- The body of the `crossListingsMap.forEach` loop for one company group:
size-one groups pass through, otherwise sort, explicit-mention early return,
location boost, then the hint chain of `processGroupHints`. -/
def processGroup (ctx : GroupCtx) (group : List MatchResult) :
    List MatchResult × List MatchResult :=
  if group.length ≤ 1 then (group, group)
  else
    let arr0 := sortCmp (listingCmp ctx.inputTokens) group
    if idxWhere (fun r => ctx.inputTokens.contains r.stock.symbol) arr0 ≠ [] then
      ((idxWhere (fun r => ctx.inputTokens.contains r.stock.symbol) arr0).map
        (fun i => arr0.getD i default), arr0)
    else
      let localIdx := idxWhere
        (fun r => ctx.targetExchanges.contains r.stock.exchangeShortName) arr0
      if ctx.targetExchanges ≠ [] ∧ localIdx ≠ [] then
        processGroupHints ctx true localIdx (boostAt (99 / 100) (6 / 5) localIdx arr0)
      else
        processGroupHints ctx false [] arr0

/-- The final (post-loop) value of a `results` entry: the unique member of the
flattened final group state carrying its symbol (`parseQuery` results have
pairwise distinct symbols). -/
def finalValueOf (finals : List MatchResult) (r : MatchResult) : MatchResult :=
  (finals.find? (fun x => x.stock.symbol == r.stock.symbol)).getD r

/-- The company key of a match: `result.stock.name.toLowerCase()`. -/
def companyKey (r : MatchResult) : Str := lower r.stock.name

/-- The cross-listing stage of `findStockTickers`: group the matches by
lowercased company name (JS `Map` preserves first-occurrence order), process
every group, and return `preferredResults` together with the post-mutation
state of the `results` array. -/
def crossListingStage (ctx : GroupCtx) (results : List MatchResult) :
    List MatchResult × List MatchResult :=
  let keys := dedupFirst (results.map companyKey)
  let groupsOut := keys.map (fun k =>
    processGroup ctx (results.filter (fun r => companyKey r == k)))
  let preferred := (groupsOut.map (fun g => g.1)).flatten
  let finals := (groupsOut.map (fun g => g.2)).flatten
  (preferred, results.map (finalValueOf finals))

/-- The hard-coded HSBC special case: when the query mentions HSBC and the
location is HK, drop both HSBC listings from the preferred results and re-add
the HK listing at confidence 0.99 and the US listing at 0.7 (when present in
the parse results). -/
def hsbcSpecial (input : Str) (location : Str) (storeFinal : List MatchResult)
    (preferred : List MatchResult) : List MatchResult :=
  if containsSub (chars "HSBC") (upper input) ∧ location = chars "HK" then
    let hsbcHK := storeFinal.find? (fun r => r.stock.symbol == chars "0005.HK")
    let hsbcUS := storeFinal.find? (fun r => r.stock.symbol == chars "HSBC")
    let uniq := preferred.filter (fun r =>
      r.stock.symbol ≠ chars "0005.HK" ∧ r.stock.symbol ≠ chars "HSBC")
    uniq ++
      (match hsbcHK with
       | some h => [⟨h.stock, 99 / 100⟩]
       | none => []) ++
      (match hsbcUS with
       | some h => [⟨h.stock, 7 / 10⟩]
       | none => [])
  else preferred

/-- `/^[A-Z]{1,5}(\.[A-Z]{1,2})?$/` of the explicit-ticker special case. -/
def looksLikeTicker (t : Str) : Bool :=
  let us := t.takeWhile isUpperAZ
  let rest := t.drop us.length
  decide (1 ≤ us.length) && decide (us.length ≤ 5) &&
    (match rest with
     | [] => true
     | ['.', a] => isUpperAZ a
     | ['.', a, b] => isUpperAZ a && isUpperAZ b
     | _ => false)

/-- The explicit-ticker special case: when the trimmed uppercased input is
ticker-shaped and present among the (post-mutation) results, push that entry
once more. -/
def exactTickerSpecial (input : Str) (storeFinal : List MatchResult)
    (preferred : List MatchResult) : List MatchResult :=
  if looksLikeTicker (upper (jsTrim input)) then
    match storeFinal.find? (fun r => r.stock.symbol == upper (jsTrim input)) with
    | some m => preferred ++ [m]
    | none => preferred
  else preferred

/-- The confidence-threshold filter:
`.filter(result => result.confidence >= confidenceThreshold)`. -/
def thresholdFilter (thresh : ℚ) (l : List MatchResult) : List MatchResult :=
  l.filter (fun r => thresh ≤ r.confidence)

/-- The location filter: explicitly mentioned symbols (substring of the
uppercased query) are always kept, otherwise the exchange must be accepted by
the scope (an empty target list accepts everything). -/
def locationFilter (input : Str) (targetExchanges : List Str)
    (l : List MatchResult) : List MatchResult :=
  l.filter (fun r =>
    containsSub r.stock.symbol (upper input) ||
    targetExchanges.isEmpty ||
    targetExchanges.contains r.stock.exchangeShortName)

/-- The final sort comparator: for the US location, two in-scope listings are
ordered by exchange priority; otherwise by descending confidence. -/
def finalCmp (location : Str) (targetExchanges : List Str)
    (a b : MatchResult) : ℚ :=
  if location = chars "US" ∧
      targetExchanges.contains a.stock.exchangeShortName ∧
      targetExchanges.contains b.stock.exchangeShortName then
    let iA := jsIndexOf a.stock.exchangeShortName targetExchanges
    let iB := jsIndexOf b.stock.exchangeShortName targetExchanges
    if iA ≠ iB then ((iA - iB : Int) : ℚ)
    else b.confidence - a.confidence
  else b.confidence - a.confidence

/-- `matches.sort((a, b) => b.confidence - a.confidence)[0]` as a one-element
list (empty for an empty group, which does not occur). -/
def headByConf (l : List MatchResult) : List MatchResult :=
  match sortCmp (fun a b => b.confidence - a.confidence) l with
  | [] => []
  | x :: _ => [x]

/-- The per-company selection of the deduplication stage: a single listing,
explicit ticker mention first, then requested location, then Hong Kong / US /
China market hints, else highest confidence. -/
def selectBest (input : Str) (location : Str) (targetExchanges : List Str)
    (hkHint usHint cnHint : Bool) (group : List MatchResult) :
    List MatchResult :=
  if group.length = 1 then group
  else
    let exactM := group.filter (fun r => containsSub r.stock.symbol (upper input))
    if exactM ≠ [] then headByConf exactM
    else
      let locM := group.filter
        (fun r => targetExchanges.contains r.stock.exchangeShortName)
      if location ≠ chars "global" ∧ targetExchanges ≠ [] ∧ locM ≠ [] then
        headByConf locM
      else
        let hkM := group.filter isHKListing
        if hkHint ∧ hkM ≠ [] then headByConf hkM
        else
          let usM := group.filter isUSListing
          if usHint ∧ usM ≠ [] then headByConf usM
          else
            let cnM := group.filter isCNListing
            if cnHint ∧ cnM ≠ [] then headByConf cnM
            else headByConf group

/-- The deduplication stage: group the filtered results by lowercased company
name (first-occurrence order) and keep one listing per company. -/
def dedupStage (input : Str) (location : Str) (targetExchanges : List Str)
    (hkHint usHint cnHint : Bool) (l : List MatchResult) : List MatchResult :=
  let keys := dedupFirst (l.map companyKey)
  (keys.map (fun k =>
    selectBest input location targetExchanges hkHint usHint cnHint
      (l.filter (fun r => companyKey r == k)))).flatten

/-- `StockTickerParser.findStockTickers` up to (and including) the `slice`:
the deduplicated `MatchResult` list, before symbols are extracted. -/
def findStockTickersMatches (stockList : List StockInfo) (fuzzy : FuzzyEngine)
    (input : Str) (location : Str) (confidenceThreshold : ℚ) (maxResults : Nat) :
    List MatchResult :=
  let results := parseQuery stockList fuzzy input 5
  let targetExchanges := exchangeMap location
  let ctx : GroupCtx :=
    ⟨splitWs (upper input), targetExchanges,
     hasHongKongHint input, hasChinaHint input, hasUSHint input, location⟩
  let stage := crossListingStage ctx results
  let preferred := exactTickerSpecial input stage.2
    (hsbcSpecial input location stage.2 stage.1)
  let filtered := sortCmp (finalCmp location targetExchanges)
    (locationFilter input targetExchanges
      (thresholdFilter confidenceThreshold preferred))
  (dedupStage input location targetExchanges
    (hasHongKongHint input) (hasUSHint input) (hasChinaHint input)
    filtered).take maxResults

/-- `StockTickerParser.findStockTickers`: the returned ticker symbols. -/
def findStockTickersModel (stockList : List StockInfo) (fuzzy : FuzzyEngine)
    (input : Str) (location : Str) (confidenceThreshold : ℚ) (maxResults : Nat) :
    List Str :=
  (findStockTickersMatches stockList fuzzy input location confidenceThreshold
    maxResults).map (fun r => r.stock.symbol)

/-! ## Data model of the extractor services
(`src/services/tickerExtractorService.ts`,
`src/services/StockFuzeMatchingService.ts`) -/

/-- `type SupportedLocation = 'GLOBAL' | 'US' | 'HK' | 'CN'` (the generation
used by `StockFuzeMatchingService` and `TickerExtractorService`). -/
inductive SupportedLocation
  | GLOBAL
  | US
  | HK
  | CN
deriving DecidableEq

/-- `type SupportedLanguage = 'en' | 'zh-CN' | 'zh-TW'` (values validated by
the chat route). -/
inductive SupportedLanguage
  | en
  | zhCN
  | zhTW
deriving DecidableEq

/-- `interface Stock` of `src/types`, together with the side-channel
`_directSymbolMatch` / `_matchScore` fields the extractor writes onto the
records (`StockWithMatchInfo`); `none` models an absent optional field. -/
structure Stock where
  symbol : Str
  name : Str
  price : Option ℚ := none
  exchange : Option Str := none
  exchangeShortName : Option Str := none
  typ : Str
  directSymbolMatch : Option Bool := none
  matchScore : Option ℚ := none
deriving DecidableEq

/-- `StockSearchResult { item: Stock; score?: number }`. -/
structure StockSearchResult where
  item : Stock
  score : Option ℚ := none
deriving DecidableEq

/-- The per-location Fuse.js indices of `StockFuzeMatchingService`,
abstracted: for a location partition and a query they return the engine hits
with their scores (`includeScore: true` on every index). -/
abbrev FuzeEngine := SupportedLocation → Str → List (Stock × ℚ)

/-- `StockFuzeMatchingService.search` (after successful initialization): the
engine hits are sorted ascending by score and only the top hit is resolved;
an empty hit list resolves to `null`. -/
def fuzeSearch (engine : FuzeEngine) (query : Str) (location : SupportedLocation) :
    Option StockSearchResult :=
  match sortCmp (fun a b => a.2 - b.2) (engine location query) with
  | [] => none
  | h :: _ => some ⟨h.1, some h.2⟩

/-- `detectMarketFocus`: market-specific keywords in the translated query. -/
def detectMarketFocus (translatedQuery : Str) : Option SupportedLocation :=
  let n := lower translatedQuery
  let hkKeywords := [chars "hong kong", chars "hk stock", chars "hong kong stock",
    chars "hong kong stocks", chars "港股", chars "hkse", chars "hkex"]
  let cnKeywords := [chars "shanghai", chars "shenzhen", chars "a-share",
    chars "a share", chars "china stock", chars "china stocks",
    chars "chinese stock", chars "chinese stocks", chars "中国股",
    chars "中国股票", chars "a股"]
  let usKeywords := [chars "nasdaq", chars "nyse", chars "us stock",
    chars "us stocks", chars "american stock", chars "american stocks",
    chars "wall street", chars "us share", chars "us shares"]
  if hkKeywords.any (fun k => containsSub k n) then some SupportedLocation.HK
  else if cnKeywords.any (fun k => containsSub k n) then some SupportedLocation.CN
  else if usKeywords.any (fun k => containsSub k n) then some SupportedLocation.US
  else none

/-- JS truthiness of the optional `translatedQuery` string parameter: absent
and empty strings are falsy. -/
def tqTruthy : Option Str → Bool
  | some l => decide (l ≠ [])
  | none => false

/-- `searchStocks`: redirect a GLOBAL search to a hinted market (when the
translated query is truthy), then — still GLOBAL and a non-English language —
to the language's market (zh-CN to CN, zh-TW to HK), and resolve the single
top hit of `StockFuzeMatchingService.search` as a 0- or 1-element list. -/
def searchStocks (engine : FuzeEngine) (query : Str)
    (location : SupportedLocation) (selectedLanguage : SupportedLanguage)
    (translatedQuery : Option Str) : List StockSearchResult :=
  let s1 :=
    if tqTruthy translatedQuery ∧ location = SupportedLocation.GLOBAL then
      match detectMarketFocus (translatedQuery.getD []) with
      | some m => m
      | none => location
    else location
  let s2 :=
    if s1 = SupportedLocation.GLOBAL ∧ selectedLanguage ≠ SupportedLanguage.en then
      if selectedLanguage = SupportedLanguage.zhCN then SupportedLocation.CN
      else if selectedLanguage = SupportedLanguage.zhTW then SupportedLocation.HK
      else s1
    else s1
  match fuzeSearch engine query s2 with
  | some r => [r]
  | none => []

/-! ## `TickerExtractorService` (first generation, with location mapping) -/

/-- `LOCATION_EXCHANGES`: exchange name fragments accepted per location. -/
def LOCATION_EXCHANGES : SupportedLocation → List Str
  | SupportedLocation.GLOBAL => []
  | SupportedLocation.US => [chars "NYSE", chars "NASDAQ", chars "AMEX", chars "OTC"]
  | SupportedLocation.CN => [chars "SHANGHAI", chars "SHENZHEN", chars "SHH", chars "SHZ"]
  | SupportedLocation.HK => [chars "HONG KONG", chars "HONG KONG STOCK EXCHANGE",
      chars "HKSE", chars "HKG"]

/-- `stock.exchangeShortName?.toUpperCase() || stock.exchange?.toUpperCase() || ''`:
the first truthy (non-empty) alternative. -/
def exchStr (s : Stock) : Str :=
  let a := (s.exchangeShortName.map upper).getD []
  if a ≠ [] then a
  else (s.exchange.map upper).getD []

/-- `TickerExtractorService.stockMatchesLocation`: GLOBAL accepts everything,
otherwise some accepted fragment must occur in the exchange string. -/
def stockMatchesLocation (s : Stock) (location : SupportedLocation) : Bool :=
  if location = SupportedLocation.GLOBAL then true
  else (LOCATION_EXCHANGES location).any (fun l => containsSub l (exchStr s))

/-- `Map.prototype.get` on the symbol-keyed stock map built by `init` (later
`set` calls override earlier ones, so the last record carrying the symbol is
returned). -/
def storeLookup (store : List Stock) (key : Str) : Option Stock :=
  store.reverse.find? (fun s => s.symbol == key)

/-- Replace the first element satisfying `p` by `v`. -/
def replaceFirst (p : Stock → Bool) (v : Stock) : List Stock → List Stock
  | [] => []
  | x :: xs => if p x then v :: xs else x :: replaceFirst p v xs

/-- Write `v` over the record the symbol map references for `key` (the last
record carrying the symbol): the in-place mutation of the shared object. -/
def storeUpdate (store : List Stock) (key : Str) (v : Stock) : List Stock :=
  (replaceFirst (fun s => s.symbol == key) v store.reverse).reverse

/-- `TickerExtractorService.findDirectMatches`: entities with a direct symbol
match that passes the location filter are tagged `_directSymbolMatch = true`,
`_matchScore = 0` — mutating the record held in the symbol map — and pushed.
Returns the mutated store together with the collected matches. -/
def findDirectMatches (store : List Stock) (entities : List Str)
    (location : SupportedLocation) : List Stock × List Stock :=
  entities.foldl
    (fun acc e =>
      match storeLookup acc.1 (upper e) with
      | none => acc
      | some s =>
        if stockMatchesLocation s location then
          let s2 := { s with directSymbolMatch := some true, matchScore := some 0 }
          (storeUpdate acc.1 (upper e) s2, acc.2 ++ [s2])
        else acc)
    (store, [])

/-- The tagging of a fuzzy hit in `findFuzzyMatches`:
`_directSymbolMatch = false`, `_matchScore = result.score`. -/
def tagFuzzy (r : StockSearchResult) : Stock :=
  { r.item with directSymbolMatch := some false, matchScore := r.score }

/-- `TickerExtractorService.findFuzzyMatches`: fuzzy-search every entity via
`searchStocks` (passing the full translated query for market detection) and
tag the results. -/
def findFuzzyMatches (engine : FuzeEngine) (entities : List Str)
    (location : SupportedLocation) (selectedLanguage : SupportedLanguage)
    (translatedQuery : Str) : List Stock :=
  (entities.map (fun e =>
    (searchStocks engine e location selectedLanguage (some translatedQuery)).map
      tagFuzzy)).flatten

/-- Symbol-based deduplication keeping first occurrences
(`TickerExtractorService.deduplicate`). -/
def dedupBySymbol (seen : List Str) : List Stock → List Stock
  | [] => []
  | s :: rest =>
    if seen.contains s.symbol then dedupBySymbol seen rest
    else s :: dedupBySymbol (s.symbol :: seen) rest

/-- `TickerExtractorService.deduplicate`. -/
def deduplicate (stocks : List Stock) : List Stock := dedupBySymbol [] stocks

/-- `!!stock._directSymbolMatch`. -/
def isDirect (s : Stock) : Bool := s.directSymbolMatch.getD false

/-- `stock._matchScore || 1`: a missing or zero score counts as 1. -/
def matchScoreOr1 (s : Stock) : ℚ :=
  match s.matchScore with
  | some v => if v = 0 then 1 else v
  | none => 1

/-- `stock.exchangeShortName?.toUpperCase() || ''`. -/
def shortExchUpper (s : Stock) : Str := (s.exchangeShortName.map upper).getD []

/-- The GLOBAL comparator of `prioritizeExchanges`: direct symbol matches
first, then ascending match score among fuzzy matches. -/
def globalCmp (a b : Stock) : ℚ :=
  if isDirect a ∧ ¬ isDirect b then -1
  else if ¬ isDirect a ∧ isDirect b then 1
  else if ¬ isDirect a ∧ ¬ isDirect b then matchScoreOr1 a - matchScoreOr1 b
  else 0

/-- The US comparator of `prioritizeExchanges`: NYSE first, then NASDAQ. -/
def usPriorityCmp (a b : Stock) : ℚ :=
  let eA := shortExchUpper a
  let eB := shortExchUpper b
  if eA = chars "NYSE" ∧ eB ≠ chars "NYSE" then -1
  else if eB = chars "NYSE" ∧ eA ≠ chars "NYSE" then 1
  else if eA = chars "NASDAQ" ∧ eB ≠ chars "NASDAQ" then -1
  else if eB = chars "NASDAQ" ∧ eA ≠ chars "NASDAQ" then 1
  else 0

/-- The CN comparator of `prioritizeExchanges`: SHH first, then SHZ. -/
def cnPriorityCmp (a b : Stock) : ℚ :=
  let eA := shortExchUpper a
  let eB := shortExchUpper b
  if eA = chars "SHH" ∧ eB ≠ chars "SHH" then -1
  else if eB = chars "SHH" ∧ eA ≠ chars "SHH" then 1
  else if eA = chars "SHZ" ∧ eB ≠ chars "SHZ" then -1
  else if eB = chars "SHZ" ∧ eA ≠ chars "SHZ" then 1
  else 0

/-- `TickerExtractorService.prioritizeExchanges`: sort by the per-location
priority (HK needs no sorting). -/
def prioritizeExchanges (stocks : List Stock) (location : SupportedLocation) :
    List Stock :=
  if stocks.length ≤ 1 then stocks
  else
    match location with
    | SupportedLocation.GLOBAL => sortCmp globalCmp stocks
    | SupportedLocation.US => sortCmp usPriorityCmp stocks
    | SupportedLocation.CN => sortCmp cnPriorityCmp stocks
    | SupportedLocation.HK => stocks

/-- `TickerExtractorService.extractTickers`.  The catalog parameter models
`getStockList()`: `Except.error` is a failing fetch, which makes `init()`
throw; the surrounding `try`/`catch` of `extractTickers` swallows the error
and returns `[]`.  The `entities` parameter models the output of the external
noun extractor `findEntities(translatedQuery)`. -/
def extractTickers (catalog : Except Str (List Stock)) (entities : List Str)
    (engine : FuzeEngine) (translatedQuery : Str)
    (selectedLocation : SupportedLocation)
    (selectedLanguage : SupportedLanguage) : List Stock :=
  if jsTrim translatedQuery = [] then []
  else
    match catalog with
    | Except.error _ => []
    | Except.ok stockList =>
      if entities = [] then []
      else
        let direct := (findDirectMatches stockList entities selectedLocation).2
        let fuzzy := findFuzzyMatches engine entities selectedLocation
          selectedLanguage translatedQuery
        prioritizeExchanges (deduplicate (direct ++ fuzzy)) selectedLocation

/-- The resolution-relevant fields of a catalog record: everything except the
`_directSymbolMatch` / `_matchScore` side-channel metadata. -/
def coreFields (s : Stock) : Str × Str × Option ℚ × Option Str × Option Str × Str :=
  (s.symbol, s.name, s.price, s.exchange, s.exchangeShortName, s.typ)

/-! ## Concrete instances used to evaluate the pipeline

A small Alibaba-style cross-listed catalog, a pair of cross-listed stocks on
minor exchanges, and tiny engine instantiations.  The engines are plausible
Fuse.js behaviours; the pipeline is quantified over the engine in the general
theorems. -/

/-- Alibaba's NYSE listing. -/
def babaNYSE : StockInfo := ⟨chars "BABA", chars "Alibaba Group Holding", chars "NYSE"⟩

/-- Alibaba's Hong Kong listing. -/
def babaHKSE : StockInfo := ⟨chars "9988.HK", chars "Alibaba Group Holding", chars "HKSE"⟩

/-- A catalog with the two Alibaba listings. -/
def aliCatalog : List StockInfo := [babaNYSE, babaHKSE]

/-- An engine hitting both Alibaba listings on the candidate `Alibaba`. -/
def aliFuzzy : FuzzyEngine := fun q =>
  if q = chars "Alibaba" then [(babaNYSE, some (1/5)), (babaHKSE, some (1/4))] else []

/-- A query with a Hong Kong market hint. -/
def aliInput : Str := chars "Alibaba Hong Kong stocks"

/-- A cross-listed company: the NYSE listing. -/
def fooN : StockInfo := ⟨chars "FOO", chars "Foo Corp", chars "NYSE"⟩

/-- The same company on an exchange outside every scope. -/
def fooX : StockInfo := ⟨chars "FOOX", chars "Foo Corp", chars "TTT"⟩

/-- Catalog with `fooN` and `fooX`. -/
def c2Catalog : List StockInfo := [fooN, fooX]

/-- An engine with no hits. -/
def noFuzzy : FuzzyEngine := fun _ => []

/-- A query whose cleaned tokens are exact symbols but whose raw whitespace
tokens are not (the trailing commas). -/
def c2Input : Str := chars "FOO, FOOX,"

/-- The same cross-listed company on AMEX (a US exchange that is not one of
the primary exchanges). -/
def fooA : StockInfo := ⟨chars "FOO", chars "Foo Corp", chars "AMEX"⟩

/-- The same company on TSX (not primary, not US, not HK). -/
def fooT : StockInfo := ⟨chars "FOOX", chars "Foo Corp", chars "TSX"⟩

/-- Catalog with `fooA` and `fooT`. -/
def c6Catalog : List StockInfo := [fooA, fooT]

/-- A standalone stock. -/
def acme : StockInfo := ⟨chars "ACME", chars "Acme Industries", chars "NYSE"⟩

/-- An engine returning a perfect (zero) score for the candidate `Acme`. -/
def c5Fuzzy : FuzzyEngine := fun q => if q = chars "Acme" then [(acme, some 0)] else []

/-- A group member on NYSE for the per-company selection lemma. -/
def wAcmeUS : MatchResult := ⟨⟨chars "AAA", chars "Acme Corp", chars "NYSE"⟩, 9/10⟩

/-- A group member on HKSE for the per-company selection lemma. -/
def wAcmeHK : MatchResult := ⟨⟨chars "1111.HK", chars "Acme Corp", chars "HKSE"⟩, 4/5⟩

/-- A two-listing company group. -/
def wGroup : List MatchResult := [wAcmeUS, wAcmeHK]

/-- A query with a Hong Kong hint mentioning neither symbol. -/
def wInput : Str := chars "acme hong kong stocks"

/-- Alibaba's NYSE record in the extractor's `Stock` shape. -/
def babaStock : Stock :=
  { symbol := chars "BABA", name := chars "Alibaba Group Holding Ltd",
    exchangeShortName := some (chars "NYSE"), typ := chars "stock" }

/-- Alibaba's HKSE record in the extractor's `Stock` shape. -/
def baba9988Stock : Stock :=
  { symbol := chars "9988.HK", name := chars "Alibaba Group Holding Ltd",
    exchangeShortName := some (chars "HKSE"), typ := chars "stock" }

/-- A plain catalog record. -/
def appleStock : Stock :=
  { symbol := chars "AAPL", name := chars "Apple Inc.",
    exchangeShortName := some (chars "NASDAQ"), typ := chars "stock" }

/-- A Fuse engine with no hits. -/
def noEngine : FuzeEngine := fun _ _ => []

/-- Two scored hits for the same query, the lower score second. -/
def acmeStockA : Stock :=
  { symbol := chars "ACME", name := chars "Acme Industries",
    exchangeShortName := some (chars "NYSE"), typ := chars "stock" }

/-- The stock carrying the minimal engine score. -/
def acmeStockB : Stock :=
  { symbol := chars "ACMD", name := chars "Acme Diversified",
    exchangeShortName := some (chars "NASDAQ"), typ := chars "stock" }

/-- An engine whose GLOBAL partition has two hits (scores 3/10 and 1/5). -/
def c9Engine : FuzeEngine := fun loc q =>
  if loc = SupportedLocation.GLOBAL ∧ q = chars "acme" then
    [(acmeStockA, 3/10), (acmeStockB, 1/5)]
  else []

/-- A Shanghai-partition stock. -/
def cnStock : Stock :=
  { symbol := chars "600000.SS", name := chars "Acme Shanghai",
    exchangeShortName := some (chars "SHH"), typ := chars "stock" }

/-- A Hong Kong-partition stock. -/
def hkStock : Stock :=
  { symbol := chars "0001.HK", name := chars "Acme Hong Kong",
    exchangeShortName := some (chars "HKSE"), typ := chars "stock" }

/-- An engine whose CN and HK partitions resolve different stocks. -/
def c10Engine : FuzeEngine := fun loc _ =>
  match loc with
  | SupportedLocation.CN => [(cnStock, 1/5)]
  | SupportedLocation.HK => [(hkStock, 1/5)]
  | _ => []

/-- A translated query with no market keywords. -/
def c10tq : Str := chars "acme query"

/-! ## General lemmas about the embedded primitives -/

attribute [local semireducible] Rat.add Rat.sub Rat.mul Rat.inv

set_option maxRecDepth 10000

theorem insertCmp_perm {α : Type} (cmp : α → α → ℚ) (a : α) (l : List α) :
    (insertCmp cmp a l).Perm (a :: l) := by
  induction l with
  | nil => simp [insertCmp]
  | cons b bs ih =>
    by_cases h : cmp a b < 0
    · simp [insertCmp, h]
    · simp only [insertCmp, if_neg h]
      exact (List.Perm.cons b ih).trans (List.Perm.swap a b bs)

theorem sortCmp_perm {α : Type} (cmp : α → α → ℚ) (l : List α) :
    (sortCmp cmp l).Perm l := by
  suffices h : ∀ (l acc : List α),
      (l.foldl (fun acc a => insertCmp cmp a acc) acc).Perm (acc ++ l) by
    simpa using h l []
  intro l
  induction l with
  | nil => simp
  | cons x xs ih =>
    intro acc
    simp only [List.foldl_cons]
    refine (ih (insertCmp cmp x acc)).trans ?_
    exact ((insertCmp_perm cmp x acc).append_right xs).trans List.perm_middle.symm

theorem mem_sortCmp {α : Type} {cmp : α → α → ℚ} {a : α} {l : List α} :
    a ∈ sortCmp cmp l ↔ a ∈ l :=
  (sortCmp_perm cmp l).mem_iff

theorem insertCmp_pairwise_key {α : Type} (k : α → ℚ) (a : α) (l : List α)
    (h : l.Pairwise (fun x y => k x ≤ k y)) :
    (insertCmp (fun x y => k x - k y) a l).Pairwise (fun x y => k x ≤ k y) := by
  induction l with
  | nil => simp [insertCmp]
  | cons b bs ih =>
    rcases List.pairwise_cons.mp h with ⟨hb, hbs⟩
    by_cases hc : k a - k b < 0
    · simp only [insertCmp, if_pos hc]
      refine List.pairwise_cons.mpr ⟨?_, h⟩
      intro y hy
      rcases List.mem_cons.mp hy with rfl | hy2
      · linarith
      · exact le_trans (by linarith) (hb y hy2)
    · simp only [insertCmp, if_neg hc]
      refine List.pairwise_cons.mpr ⟨?_, ih hbs⟩
      intro y hy
      have hmem : y ∈ a :: bs :=
        (insertCmp_perm (fun x y => k x - k y) a bs).mem_iff.mp hy
      rcases List.mem_cons.mp hmem with rfl | hy2
      · linarith
      · exact hb y hy2

theorem sortCmp_pairwise_key {α : Type} (k : α → ℚ) (l : List α) :
    (sortCmp (fun x y => k x - k y) l).Pairwise (fun x y => k x ≤ k y) := by
  suffices h : ∀ (l acc : List α), acc.Pairwise (fun x y => k x ≤ k y) →
      (l.foldl (fun acc a => insertCmp (fun x y => k x - k y) a acc)
        acc).Pairwise (fun x y => k x ≤ k y) by
    exact h l [] (by simp)
  intro l
  induction l with
  | nil => intro acc hacc; simpa using hacc
  | cons x xs ih =>
    intro acc hacc
    exact ih _ (insertCmp_pairwise_key k x acc hacc)

theorem headByConf_subset {m : MatchResult} {l : List MatchResult}
    (h : m ∈ headByConf l) : m ∈ l := by
  unfold headByConf at h
  cases hs : sortCmp (fun a b => b.confidence - a.confidence) l with
  | nil => rw [hs] at h; simp at h
  | cons x xs =>
    rw [hs] at h
    simp only [List.mem_singleton] at h
    subst h
    have hx : m ∈ sortCmp (fun a b => b.confidence - a.confidence) l := by
      rw [hs]; exact List.mem_cons_self _ _
    exact mem_sortCmp.mp hx

theorem headByConf_length_le (l : List MatchResult) :
    (headByConf l).length ≤ 1 := by
  unfold headByConf
  cases hs : sortCmp (fun a b => b.confidence - a.confidence) l with
  | nil => simp
  | cons x xs => simp

theorem selectBest_subset {input location : Str} {targetExchanges : List Str}
    {hkHint usHint cnHint : Bool} {group : List MatchResult} {m : MatchResult}
    (h : m ∈ selectBest input location targetExchanges hkHint usHint cnHint group) :
    m ∈ group := by
  simp only [selectBest] at h
  split at h
  · exact h
  · split at h
    · exact List.mem_filter.mp (headByConf_subset h) |>.1
    · split at h
      · exact List.mem_filter.mp (headByConf_subset h) |>.1
      · split at h
        · exact List.mem_filter.mp (headByConf_subset h) |>.1
        · split at h
          · exact List.mem_filter.mp (headByConf_subset h) |>.1
          · split at h
            · exact List.mem_filter.mp (headByConf_subset h) |>.1
            · exact headByConf_subset h

theorem selectBest_length_le (input location : Str) (targetExchanges : List Str)
    (hkHint usHint cnHint : Bool) (group : List MatchResult) :
    (selectBest input location targetExchanges hkHint usHint cnHint group).length ≤ 1 := by
  simp only [selectBest]
  split
  · omega
  · split
    · exact headByConf_length_le _
    · split
      · exact headByConf_length_le _
      · split
        · exact headByConf_length_le _
        · split
          · exact headByConf_length_le _
          · split
            · exact headByConf_length_le _
            · exact headByConf_length_le _

theorem dedupStage_subset {input location : Str} {targetExchanges : List Str}
    {hkHint usHint cnHint : Bool} {l : List MatchResult} {m : MatchResult}
    (h : m ∈ dedupStage input location targetExchanges hkHint usHint cnHint l) :
    m ∈ l := by
  simp only [dedupStage] at h
  rcases List.mem_flatten.mp h with ⟨block, hblock, hm⟩
  rcases List.mem_map.mp hblock with ⟨k, _, rfl⟩
  exact List.mem_filter.mp (selectBest_subset hm) |>.1

theorem findStockTickersMatches_conf_ge (stockList : List StockInfo)
    (fuzzy : FuzzyEngine) (input location : Str) (t : ℚ) (maxResults : Nat)
    (m : MatchResult)
    (h : m ∈ findStockTickersMatches stockList fuzzy input location t maxResults) :
    t ≤ m.confidence := by
  simp only [findStockTickersMatches] at h
  have h1 := dedupStage_subset (List.take_subset _ _ h)
  have h2 := mem_sortCmp.mp h1
  unfold locationFilter at h2
  have h3 := (List.mem_filter.mp h2).1
  unfold thresholdFilter at h3
  have h4 := (List.mem_filter.mp h3).2
  simpa using h4


theorem cappedBoost_le (cap mult c : ℚ) : cappedBoost cap mult c ≤ cap :=
  min_le_left _ _

theorem mem_boostAt {cap mult : ℚ} {idxs : List Nat} {arr : List MatchResult}
    {x : MatchResult} (hx : x ∈ boostAt cap mult idxs arr) :
    ∃ r ∈ arr, x = r ∨
      x = { r with confidence := cappedBoost cap mult r.confidence } := by
  unfold boostAt at hx
  rcases List.mem_map.mp hx with ⟨e, he, rfl⟩
  have hr : e.2 ∈ arr := by
    have hsnd := List.enum_map_snd arr
    exact hsnd ▸ List.mem_map_of_mem Prod.snd he
  refine ⟨e.2, hr, ?_⟩
  by_cases hc : idxs.contains e.1
  · rw [if_pos hc]; right; rfl
  · rw [if_neg hc]; left; rfl

theorem boostAt_le_one {cap mult : ℚ} (hcap : cap ≤ 1) {idxs : List Nat}
    {arr : List MatchResult} (h : ∀ r ∈ arr, r.confidence ≤ 1) :
    ∀ x ∈ boostAt cap mult idxs arr, x.confidence ≤ 1 := by
  intro x hx
  rcases mem_boostAt hx with ⟨r, hr, h1 | h1⟩
  · rw [h1]; exact h r hr
  · rw [h1]; exact le_trans (cappedBoost_le _ _ _) hcap

theorem getD_conf_le_one {arr : List MatchResult}
    (h : ∀ r ∈ arr, r.confidence ≤ 1) (i : Nat) :
    (arr.getD i default).confidence ≤ 1 := by
  induction arr generalizing i with
  | nil =>
    simp only [List.getD_nil]
    norm_num [default]
  | cons x xs ih =>
    cases i with
    | zero => simpa using h x (List.mem_cons_self _ _)
    | succ n =>
      simp only [List.getD_cons_succ]
      exact ih (fun r hr => h r (List.mem_cons_of_mem _ hr)) n

theorem mapGetD_conf_le_one {arr : List MatchResult}
    (h : ∀ r ∈ arr, r.confidence ≤ 1) {idxs : List Nat} {m : MatchResult}
    (hm : m ∈ idxs.map (fun i => arr.getD i default)) : m.confidence ≤ 1 := by
  rcases List.mem_map.mp hm with ⟨i, _, rfl⟩
  exact getD_conf_le_one h i

theorem processGroupHints_bound (ctx : GroupCtx) (doLocal : Bool)
    (pushes1 : List Nat) (arr1 : List MatchResult)
    (h : ∀ r ∈ arr1, r.confidence ≤ 1) :
    ∀ m ∈ (processGroupHints ctx doLocal pushes1 arr1).1,
      m.confidence ≤ 21/20 ∧ (isUSListing m = false → m.confidence ≤ 1) := by
  intro m hm
  have hone : ∀ {x : MatchResult}, x.confidence ≤ 1 →
      x.confidence ≤ 21/20 ∧ (isUSListing x = false → x.confidence ≤ 1) := by
    intro x hx
    exact ⟨by linarith, fun _ => hx⟩
  simp only [processGroupHints] at hm
  split at hm
  · exact hone (mapGetD_conf_le_one (boostAt_le_one (by norm_num) h) hm)
  · split at hm
    · exact hone (mapGetD_conf_le_one (boostAt_le_one (by norm_num) h) hm)
    · split at hm
      · exact hone (mapGetD_conf_le_one (boostAt_le_one (by norm_num) h) hm)
      · split at hm
        · exact hone (mapGetD_conf_le_one h hm)
        · split at hm
          · exact hone (mapGetD_conf_le_one (boostAt_le_one (by norm_num) h) hm)
          · split at hm
            · exact hone (mapGetD_conf_le_one h hm)
            · rcases List.mem_map.mp hm with ⟨r, hr, rfl⟩
              have hrle : r.confidence ≤ 1 := h r hr
              by_cases hus : isUSListing r = true
              · rw [if_pos hus]
                constructor
                · show r.confidence * (21/20) ≤ 21/20
                  nlinarith [hrle]
                · intro hfalse
                  have hf2 : isUSListing r = false := hfalse
                  rw [hf2] at hus
                  cases hus
              · rw [if_neg hus]
                exact hone hrle

theorem replaceFirst_map_core (p : Stock → Bool) (v : Stock) (l : List Stock)
    (h : ∀ s, l.find? p = some s → coreFields v = coreFields s) :
    (replaceFirst p v l).map coreFields = l.map coreFields := by
  induction l with
  | nil => rfl
  | cons x xs ih =>
    by_cases hp : p x
    · have hv := h x (by simp [List.find?_cons_of_pos _ hp])
      simp [replaceFirst, hp, hv]
    · simp only [replaceFirst, if_neg hp, List.map_cons]
      rw [ih (fun s hs => h s (by rw [List.find?_cons_of_neg _ hp]; exact hs))]

theorem storeUpdate_map_core (store : List Stock) (key : Str) (v : Stock)
    (h : ∀ s, storeLookup store key = some s → coreFields v = coreFields s) :
    (storeUpdate store key v).map coreFields = store.map coreFields := by
  unfold storeUpdate
  unfold storeLookup at h
  rw [List.map_reverse, replaceFirst_map_core _ _ _ h, ← List.map_reverse,
    List.reverse_reverse]


/-- Every accumulated seen-symbol has a confidence-1 entry in the results. -/
def ExactInv (acc : ParseAcc) : Prop :=
  ∀ sym ∈ acc.2, ∃ m ∈ acc.1, m.stock.symbol = sym ∧ m.confidence = 1

theorem exactPass_fold (stockList : List StockInfo) :
    ∀ (cs : List Str) (acc : ParseAcc), ExactInv acc →
      ExactInv (cs.foldl
        (fun acc c =>
          match symbolLookup stockList c with
          | some s =>
            if acc.2.contains s.symbol then acc
            else (acc.1 ++ [⟨s, 1⟩], acc.2 ++ [s.symbol])
          | none => acc) acc) ∧
      (∀ c ∈ cs, ∀ s, symbolLookup stockList c = some s →
        s.symbol ∈ (cs.foldl
          (fun acc c =>
            match symbolLookup stockList c with
            | some s =>
              if acc.2.contains s.symbol then acc
              else (acc.1 ++ [⟨s, 1⟩], acc.2 ++ [s.symbol])
            | none => acc) acc).2) ∧
      (∀ sym ∈ acc.2, sym ∈ (cs.foldl
        (fun acc c =>
          match symbolLookup stockList c with
          | some s =>
            if acc.2.contains s.symbol then acc
            else (acc.1 ++ [⟨s, 1⟩], acc.2 ++ [s.symbol])
          | none => acc) acc).2) := by
  intro cs
  induction cs with
  | nil =>
    intro acc hinv
    exact ⟨hinv, by simp, fun sym h => h⟩
  | cons c rest ih =>
    intro acc hinv
    simp only [List.foldl_cons]
    generalize hstep : (match symbolLookup stockList c with
      | some s =>
        if acc.2.contains s.symbol then acc
        else (acc.1 ++ [⟨s, 1⟩], acc.2 ++ [s.symbol])
      | none => acc : ParseAcc) = acc2
    have hinv2 : ExactInv acc2 := by
      rw [← hstep]
      cases hl : symbolLookup stockList c with
      | none => exact hinv
      | some s =>
        show ExactInv (if acc.2.contains s.symbol then acc
          else (acc.1 ++ [⟨s, 1⟩], acc.2 ++ [s.symbol]))
        by_cases hc2 : s.symbol ∈ acc.2
        · rw [if_pos (by simpa using hc2)]
          exact hinv
        · rw [if_neg (by simpa using hc2)]
          intro sym hsym
          rcases List.mem_append.mp hsym with h1 | h1
          · rcases hinv sym h1 with ⟨m, hm, he, hcf⟩
            exact ⟨m, List.mem_append_left _ hm, he, hcf⟩
          · simp only [List.mem_singleton] at h1
            exact ⟨⟨s, 1⟩, List.mem_append_right _ (List.mem_singleton_self _),
              h1.symm ▸ rfl, rfl⟩
    have hsub : ∀ sym ∈ acc.2, sym ∈ acc2.2 := by
      rw [← hstep]
      cases hl : symbolLookup stockList c with
      | none => exact fun sym h => h
      | some s =>
        show ∀ sym ∈ acc.2, sym ∈ (if acc.2.contains s.symbol then acc
          else (acc.1 ++ [⟨s, 1⟩], acc.2 ++ [s.symbol])).2
        by_cases hc2 : s.symbol ∈ acc.2
        · rw [if_pos (by simpa using hc2)]
          exact fun sym h => h
        · rw [if_neg (by simpa using hc2)]
          exact fun sym h => List.mem_append_left _ h
    rcases ih acc2 hinv2 with ⟨ih1, ih2, ih3⟩
    refine ⟨ih1, ?_, fun sym h => ih3 sym (hsub sym h)⟩
    intro c2 hc2 s hs
    rcases List.mem_cons.mp hc2 with rfl | hmem
    · apply ih3
      rw [← hstep]
      cases hl : symbolLookup stockList c2 with
      | none => rw [hl] at hs; cases hs
      | some s2 =>
        rw [hl] at hs
        cases hs
        show s.symbol ∈ (if acc.2.contains s.symbol then acc
          else (acc.1 ++ [⟨s, 1⟩], acc.2 ++ [s.symbol])).2
        by_cases hcont : s.symbol ∈ acc.2
        · rw [if_pos (by simpa using hcont)]
          exact hcont
        · rw [if_neg (by simpa using hcont)]
          exact List.mem_append_right _ (List.mem_singleton_self _)
    · exact ih2 c2 hmem s hs

/-- Generic first-component monotonicity for accumulator folds. -/
theorem foldl_fst_mono {β : Type} (g : ParseAcc → β → ParseAcc)
    (hg : ∀ acc b, ∀ m ∈ acc.1, m ∈ (g acc b).1) :
    ∀ (l : List β) (acc : ParseAcc), ∀ m ∈ acc.1, m ∈ (l.foldl g acc).1 := by
  intro l
  induction l with
  | nil => intro acc m hm; exact hm
  | cons x xs ih =>
    intro acc m hm
    simp only [List.foldl_cons]
    exact ih (g acc x) m (hg acc x m hm)

theorem mem_fuzzyPass (stockList : List StockInfo) (fuzzy : FuzzyEngine)
    (maxResults : Nat) (candidates : List Str) (init : ParseAcc)
    {m : MatchResult} (hm : m ∈ init.1) :
    m ∈ (fuzzyPass stockList fuzzy maxResults candidates init).1 := by
  unfold fuzzyPass
  refine foldl_fst_mono _ ?_ candidates init m hm
  intro acc c m2 hm2
  cases hl : symbolLookup stockList c with
  | some s => simpa [hl] using hm2
  | none =>
    simp only [hl]
    refine foldl_fst_mono _ ?_ _ acc m2 hm2
    intro acc2 hit m3 hm3
    show m3 ∈ (if acc2.2.contains hit.1.symbol then acc2
      else (acc2.1 ++ [⟨hit.1, fuzzConf hit.2⟩], acc2.2 ++ [hit.1.symbol])).1
    by_cases hc : hit.1.symbol ∈ acc2.2
    · rw [if_pos (by simpa using hc)]
      exact hm3
    · rw [if_neg (by simpa using hc)]
      exact List.mem_append_left _ hm3

theorem mem_fullTextPass (fuzzy : FuzzyEngine) (maxResults : Nat) (input : Str)
    (acc : ParseAcc) {m : MatchResult} (hm : m ∈ acc.1) :
    m ∈ (fullTextPass fuzzy maxResults input acc).1 := by
  unfold fullTextPass
  split
  · refine foldl_fst_mono _ ?_ _ acc m hm
    intro acc2 hit m3 hm3
    show m3 ∈ (if acc2.2.contains hit.1.symbol then acc2
      else (acc2.1 ++ [⟨hit.1, fullTextConf hit.2⟩], acc2.2 ++ [hit.1.symbol])).1
    by_cases hc : hit.1.symbol ∈ acc2.2
    · rw [if_pos (by simpa using hc)]
      exact hm3
    · rw [if_neg (by simpa using hc)]
      exact List.mem_append_left _ hm3
  · exact hm


theorem dedupBySymbol_nodup (seen : List Str) (l : List Stock) :
    ((dedupBySymbol seen l).map (fun s => s.symbol)).Nodup ∧
    ∀ s ∈ dedupBySymbol seen l, s.symbol ∉ seen := by
  induction l generalizing seen with
  | nil => exact ⟨List.nodup_nil, by simp [dedupBySymbol]⟩
  | cons x xs ih =>
    show ((if seen.contains x.symbol then dedupBySymbol seen xs
        else x :: dedupBySymbol (x.symbol :: seen) xs).map
          (fun s => s.symbol)).Nodup ∧
      ∀ s ∈ (if seen.contains x.symbol then dedupBySymbol seen xs
        else x :: dedupBySymbol (x.symbol :: seen) xs), s.symbol ∉ seen
    by_cases hc : x.symbol ∈ seen
    · rw [if_pos (by simpa using hc)]
      exact ih seen
    · rw [if_neg (by simpa using hc)]
      rcases ih (x.symbol :: seen) with ⟨ihn, ihs⟩
      constructor
      · simp only [List.map_cons, List.nodup_cons]
        refine ⟨?_, ihn⟩
        intro hmem
        rcases List.mem_map.mp hmem with ⟨y, hy, hye⟩
        have := ihs y hy
        exact this (hye ▸ List.mem_cons_self _ _)
      · intro s hs
        rcases List.mem_cons.mp hs with rfl | hmem
        · exact hc
        · exact fun hin => ihs s hmem (List.mem_cons_of_mem _ hin)

theorem prioritizeExchanges_perm (stocks : List Stock) (loc : SupportedLocation) :
    (prioritizeExchanges stocks loc).Perm stocks := by
  unfold prioritizeExchanges
  split
  · exact List.Perm.refl _
  · cases loc with
    | GLOBAL => exact sortCmp_perm _ _
    | US => exact sortCmp_perm _ _
    | CN => exact sortCmp_perm _ _
    | HK => exact List.Perm.refl _

theorem extractTickers_symbol_nodup (catalog : Except Str (List Stock))
    (entities : List Str) (engine : FuzeEngine) (tq : Str)
    (loc : SupportedLocation) (lang : SupportedLanguage) :
    ((extractTickers catalog entities engine tq loc lang).map
      (fun s => s.symbol)).Nodup := by
  simp only [extractTickers]
  split
  · exact List.nodup_nil
  · split
    · exact List.nodup_nil
    · rename_i stockList
      split
      · exact List.nodup_nil
      · have hperm := prioritizeExchanges_perm
          (deduplicate ((findDirectMatches stockList entities loc).2 ++
            findFuzzyMatches engine entities loc lang tq)) loc
        have hperm2 := hperm.map (fun s => s.symbol)
        refine hperm2.nodup_iff.mpr ?_
        exact (dedupBySymbol_nodup [] _).1

theorem dedupFirst_nodup_go (seen : List Str) (l : List Str) :
    (dedupFirstGo seen l).Nodup ∧ ∀ x ∈ dedupFirstGo seen l, x ∉ seen := by
  induction l generalizing seen with
  | nil => exact ⟨List.nodup_nil, by simp [dedupFirstGo]⟩
  | cons x xs ih =>
    show (if seen.contains x then dedupFirstGo seen xs
        else x :: dedupFirstGo (x :: seen) xs).Nodup ∧
      ∀ y ∈ (if seen.contains x then dedupFirstGo seen xs
        else x :: dedupFirstGo (x :: seen) xs), y ∉ seen
    by_cases hc : x ∈ seen
    · rw [if_pos (by simpa using hc)]
      exact ih seen
    · rw [if_neg (by simpa using hc)]
      rcases ih (x :: seen) with ⟨ihn, ihs⟩
      constructor
      · exact List.nodup_cons.mpr
          ⟨fun hmem => ihs x hmem (List.mem_cons_self _ _), ihn⟩
      · intro y hy
        rcases List.mem_cons.mp hy with rfl | hmem
        · exact hc
        · exact fun hin => ihs y hmem (List.mem_cons_of_mem _ hin)

theorem dedupFirst_nodup (l : List Str) : (dedupFirst l).Nodup :=
  (dedupFirst_nodup_go [] l).1

theorem selectBest_companyKey {input location : Str} {targetExchanges : List Str}
    {hkHint usHint cnHint : Bool} {l : List MatchResult} {k : Str}
    {m : MatchResult}
    (hm : m ∈ selectBest input location targetExchanges hkHint usHint cnHint
      (l.filter (fun r => companyKey r == k))) :
    companyKey m = k := by
  have := (List.mem_filter.mp (selectBest_subset hm)).2
  exact eq_of_beq this

theorem length_le_one_nodup {α : Type} {l : List α} (h : l.length ≤ 1) :
    l.Nodup := by
  cases l with
  | nil => exact List.nodup_nil
  | cons x xs =>
    cases xs with
    | nil => simp
    | cons y ys => simp at h

theorem blocks_key_nodup (keys : List Str) (f : Str → List MatchResult)
    (hk : keys.Nodup) (hf1 : ∀ k, (f k).length ≤ 1)
    (hf2 : ∀ k, ∀ m ∈ f k, companyKey m = k) :
    (((keys.map f).flatten).map companyKey).Nodup := by
  induction keys with
  | nil => exact List.nodup_nil
  | cons k ks ih =>
    rcases List.nodup_cons.mp hk with ⟨hknot, hks⟩
    simp only [List.map_cons, List.flatten_cons, List.map_append]
    refine List.nodup_append.mpr ⟨?_, ih hks, ?_⟩
    · refine length_le_one_nodup ?_
      rw [List.length_map]
      exact hf1 k
    · intro a ha hb
      rcases List.mem_map.mp ha with ⟨m, hmf, rfl⟩
      rcases List.mem_map.mp hb with ⟨m2, hm2, he2⟩
      rcases List.mem_flatten.mp hm2 with ⟨block, hblock, hmb⟩
      rcases List.mem_map.mp hblock with ⟨k2, hk2, rfl⟩
      have h1 : companyKey m = k := hf2 k m hmf
      have h2 : companyKey m2 = k2 := hf2 k2 m2 hmb
      rw [h1] at he2
      rw [h2] at he2
      exact hknot (he2 ▸ hk2)

theorem dedupStage_key_nodup (input location : Str) (targetExchanges : List Str)
    (hkHint usHint cnHint : Bool) (l : List MatchResult) :
    ((dedupStage input location targetExchanges hkHint usHint cnHint l).map
      companyKey).Nodup := by
  unfold dedupStage
  exact blocks_key_nodup _ _ (dedupFirst_nodup _)
    (fun k => selectBest_length_le _ _ _ _ _ _ _)
    (fun k m hm => selectBest_companyKey hm)

theorem findStockTickersMatches_key_nodup (stockList : List StockInfo)
    (fuzzy : FuzzyEngine) (input location : Str) (t : ℚ) (maxResults : Nat) :
    ((findStockTickersMatches stockList fuzzy input location t maxResults).map
      companyKey).Nodup := by
  simp only [findStockTickersMatches]
  exact List.Nodup.sublist ((List.take_sublist _ _).map companyKey)
    (dedupStage_key_nodup _ _ _ _ _ _ _)

theorem symbols_nodup_of_key_nodup (out : List MatchResult)
    (hkeys : (out.map companyKey).Nodup)
    (hfun : ∀ a ∈ out, ∀ b ∈ out,
      a.stock.symbol = b.stock.symbol → a.stock.name = b.stock.name) :
    (out.map (fun r => r.stock.symbol)).Nodup := by
  unfold List.Nodup at hkeys ⊢
  rw [List.pairwise_map] at hkeys ⊢
  refine hkeys.imp_of_mem ?_
  intro a b ha hb hne heq
  exact hne (by unfold companyKey; rw [hfun a ha b hb heq])


/-! ## Claim theorems -/

/-- Claim C1 (counterexample): on the cross-listed Alibaba catalog with the
query `Alibaba Hong Kong stocks` and requested scope `US`, the query carries a
Hong Kong market hint and the hint rule selects the Hong Kong listing
`9988.HK`, yet the pipeline returns `BABA` (the scope's listing) and drops
`9988.HK`: the market-hint rule does not take priority over the requested
scope, contradicting the claimed strict rule order. -/
theorem C1_counterexample :
    hasHongKongHint aliInput = true ∧
    exchangeMap (chars "US") ≠ [] ∧
    findStockTickersModel aliCatalog aliFuzzy aliInput (chars "US") (3/10) 5
      = [chars "BABA"] ∧
    chars "9988.HK" ∉
      findStockTickersModel aliCatalog aliFuzzy aliInput (chars "US") (3/10) 5 ∧
    ((parseQuery aliCatalog aliFuzzy aliInput 5).filter isHKListing).map
      (fun r => r.stock.symbol) = [chars "9988.HK"] := by decide

/-- Claim C1 (amended): in the per-company selection of the deduplication
stage, the requested non-GLOBAL scope takes priority over the market-hint
rules: whenever the location is not `global`, the scope's exchange list is
non-empty, no listing of the company is explicitly mentioned in the query, and
some listing belongs to the requested scope, the selected listing belongs to
the requested scope — regardless of any market hint. -/
theorem C1_theorem (input location : Str) (targetExchanges : List Str)
    (hkHint usHint cnHint : Bool) (group : List MatchResult) (m : MatchResult)
    (hloc : location ≠ chars "global") (hne : targetExchanges ≠ [])
    (hnoexp : ∀ r ∈ group, containsSub r.stock.symbol (upper input) = false)
    (hscope : ∃ r ∈ group, targetExchanges.contains r.stock.exchangeShortName = true)
    (hm : m ∈ selectBest input location targetExchanges hkHint usHint cnHint group) :
    targetExchanges.contains m.stock.exchangeShortName = true := by
  rcases hscope with ⟨r, hr, hrT⟩
  have hex : group.filter (fun r => containsSub r.stock.symbol (upper input)) = [] :=
    List.filter_eq_nil_iff.mpr (by intro a ha; simp [hnoexp a ha])
  have hlocne : group.filter
      (fun r => targetExchanges.contains r.stock.exchangeShortName) ≠ [] := by
    intro hnil
    have := List.filter_eq_nil_iff.mp hnil r hr
    exact this (by simpa using hrT)
  simp only [selectBest] at hm
  split at hm
  · next hlen =>
    have hg : group = [m] := by
      rcases group with _ | ⟨x, xs⟩
      · simp at hlen
      · rcases xs with _ | _
        · simp_all
        · simp at hlen
    rw [hg] at hr
    simp only [List.mem_singleton] at hr
    exact hr ▸ hrT
  · rw [hex] at hm
    simp only [ne_eq, not_true_eq_false, if_false] at hm
    split at hm
    · exact (List.mem_filter.mp (headByConf_subset hm)).2
    · next hcond =>
      exact absurd ⟨hloc, hne, hlocne⟩ hcond

/-- Claim C1 (witness): a concrete two-listing company group with a Hong Kong
hint active and a US scope requested; the selected listing is the US one. -/
theorem C1_witness :
    (exchangeMap (chars "US")).contains wAcmeUS.stock.exchangeShortName = true :=
  C1_theorem wInput (chars "US") (exchangeMap (chars "US")) true false false
    wGroup wAcmeUS (by decide) (by decide) (by decide)
    ⟨wAcmeUS, by decide, by decide⟩ (by decide)


/-- Claim C2 (counterexample): the candidate `FOO` in the query `FOO, FOOX,`
(requested scope `US`) matches the catalog symbol exactly and is produced with
confidence 1.0, yet the cross-listing scope boost lowers its confidence to
0.99 in the final output — the scope check is satisfied but the symbol does
not appear with confidence 1.0, and an exact match does not keep confidence
1.0 throughout the pipeline. -/
theorem C2_counterexample :
    (⟨fooN, 1⟩ : MatchResult) ∈ parseQuery c2Catalog noFuzzy c2Input 5 ∧
    findStockTickersMatches c2Catalog noFuzzy c2Input (chars "US") (3/10) 5
      = [⟨fooN, 99/100⟩] ∧
    (99/100 : ℚ) ≠ 1 := by decide


/-- Claim C2 (amended): a candidate equal (case-sensitively) to a catalog
symbol always yields a match with confidence exactly 1.0 in the matcher
stage, for every engine and input. -/
theorem C2_theorem (stockList : List StockInfo) (fuzzy : FuzzyEngine)
    (input : Str) (maxResults : Nat) (c : Str) (s : StockInfo)
    (hc : c ∈ extractCandidates input) (hs : symbolLookup stockList c = some s) :
    ∃ m ∈ parseQuery stockList fuzzy input maxResults,
      m.stock.symbol = c ∧ m.confidence = 1 := by
  have hsymb : s.symbol = c := by
    have hp := List.find?_some hs
    exact eq_of_beq hp
  have hfold := exactPass_fold stockList (extractCandidates input) ([], [])
    (by intro sym h; cases h)
  have hseen : s.symbol ∈ (exactPass stockList (extractCandidates input)).2 :=
    hfold.2.1 c hc s hs
  rcases hfold.1 s.symbol hseen with ⟨m, hm, hmsym, hmconf⟩
  refine ⟨m, ?_, hmsym.trans hsymb, hmconf⟩
  unfold parseQuery
  apply mem_sortCmp.mpr
  exact mem_fullTextPass fuzzy maxResults input _
    (mem_fuzzyPass stockList fuzzy maxResults (extractCandidates input) _ hm)

/-- Claim C2 (witness): the exact candidate `FOO` of the query `FOO, FOOX,`
produces a confidence-1 match in the parse results. -/
theorem C2_witness :
    ∃ m ∈ parseQuery c2Catalog noFuzzy c2Input 5,
      m.stock.symbol = chars "FOO" ∧ m.confidence = 1 :=
  C2_theorem c2Catalog noFuzzy c2Input 5 (chars "FOO") fooN
    (by decide) (by decide)

/-- Claim C3 (counterexample): `TickerExtractorService.extractTickers`
deduplicates by symbol only; a query naming both Alibaba listings returns two
records with the same company name. -/
theorem C3_counterexample :
    (extractTickers (Except.ok [babaStock, baba9988Stock])
        [chars "BABA", chars "9988.HK"] noEngine (chars "compare BABA and 9988.HK")
        SupportedLocation.GLOBAL SupportedLanguage.en).map (fun s => s.name)
      = [chars "Alibaba Group Holding Ltd", chars "Alibaba Group Holding Ltd"] ∧
    (extractTickers (Except.ok [babaStock, baba9988Stock])
        [chars "BABA", chars "9988.HK"] noEngine (chars "compare BABA and 9988.HK")
        SupportedLocation.GLOBAL SupportedLanguage.en).map (fun s => s.symbol)
      = [chars "BABA", chars "9988.HK"] := by decide


/-- Claim C3 (amended): the extractor output has pairwise-distinct symbols;
the `findStockTickersMatches` pipeline output has pairwise-distinct
normalized company names, and distinct symbols as well whenever equal symbols
imply equal names among the returned records (which holds when catalog
symbols are unique). -/
theorem C3_theorem :
    (∀ (catalog : Except Str (List Stock)) (entities : List Str)
        (engine : FuzeEngine) (tq : Str) (loc : SupportedLocation)
        (lang : SupportedLanguage),
      ((extractTickers catalog entities engine tq loc lang).map
        (fun s => s.symbol)).Nodup) ∧
    (∀ (stockList : List StockInfo) (fuzzy : FuzzyEngine) (input location : Str)
        (t : ℚ) (maxResults : Nat),
      ((findStockTickersMatches stockList fuzzy input location t maxResults).map
        companyKey).Nodup) ∧
    (∀ (stockList : List StockInfo) (fuzzy : FuzzyEngine) (input location : Str)
        (t : ℚ) (maxResults : Nat),
      (∀ a ∈ findStockTickersMatches stockList fuzzy input location t maxResults,
        ∀ b ∈ findStockTickersMatches stockList fuzzy input location t maxResults,
          a.stock.symbol = b.stock.symbol → a.stock.name = b.stock.name) →
      ((findStockTickersMatches stockList fuzzy input location t maxResults).map
        (fun r => r.stock.symbol)).Nodup) :=
  ⟨extractTickers_symbol_nodup,
   findStockTickersMatches_key_nodup,
   fun stockList fuzzy input location t maxResults hfun =>
     symbols_nodup_of_key_nodup _
       (findStockTickersMatches_key_nodup stockList fuzzy input location t
         maxResults) hfun⟩

/-- Claim C3 (witness): no-duplicate guarantees at concrete runs of both
pipelines. -/
theorem C3_witness :
    ((extractTickers (Except.ok [babaStock, baba9988Stock]) [chars "BABA"]
        noEngine (chars "find BABA") SupportedLocation.GLOBAL
        SupportedLanguage.en).map (fun s => s.symbol)).Nodup ∧
    ((findStockTickersMatches c2Catalog noFuzzy c2Input (chars "US") (3/10) 5).map
      companyKey).Nodup ∧
    ((findStockTickersMatches c2Catalog noFuzzy c2Input (chars "US") (3/10) 5).map
      (fun r => r.stock.symbol)).Nodup :=
  ⟨C3_theorem.1 (Except.ok [babaStock, baba9988Stock]) [chars "BABA"]
     noEngine (chars "find BABA") SupportedLocation.GLOBAL SupportedLanguage.en,
   C3_theorem.2.1 c2Catalog noFuzzy c2Input (chars "US") (3/10) 5,
   C3_theorem.2.2 c2Catalog noFuzzy c2Input (chars "US") (3/10) 5 (by decide)⟩

/-- Claim C4 (counterexample): a failing catalog fetch produces the empty
list, exactly the value a successful call with no matching entities produces:
the caller cannot distinguish catalog unavailability from no matches. -/
theorem C4_counterexample :
    extractTickers (Except.error (chars "Failed to fetch stock list"))
        [chars "Apple"] noEngine (chars "find me Apple stock price")
        SupportedLocation.GLOBAL SupportedLanguage.en = [] ∧
    extractTickers (Except.ok [appleStock]) [chars "Zebra"] noEngine
        (chars "find me Zebra stock price")
        SupportedLocation.GLOBAL SupportedLanguage.en = [] := by decide

/-- Claim C4 (amended): when the catalog is unavailable,
`TickerExtractorService.extractTickers` swallows the error and returns the
empty list for every input — no failure is surfaced to the caller. -/
theorem C4_theorem (msg : Str) (entities : List Str) (engine : FuzeEngine)
    (translatedQuery : Str) (loc : SupportedLocation) (lang : SupportedLanguage) :
    extractTickers (Except.error msg) entities engine translatedQuery loc lang = [] := by
  unfold extractTickers
  split <;> rfl

/-- Claim C5 (counterexample): an engine hit with score exactly 0 (a perfect
fuzzy hit) is converted to confidence 0.8, not `1 − 0 = 1`: the
`score ? 1 - score : 0.8` truthiness test treats a zero score as absent. -/
theorem C5_counterexample :
    parseQuery [] c5Fuzzy (chars "Acme") 5 = [⟨acme, 4/5⟩] ∧
    (4/5 : ℚ) ≠ 1 - 0 := by decide

/-- Claim C5 (amended): for a nonzero engine score `s` the converted
confidence is `1 − s` and the whole-query-text confidence is `(1 − s) · 0.9`;
for `s ∈ [0,1]` the confidence lies in `[0,1]`; a zero or missing score falls
back to the constant 0.8. -/
theorem C5_theorem (s : ℚ) :
    (s ≠ 0 → fuzzConf (some s) = 1 - s ∧ fullTextConf (some s) = (1 - s) * (9/10)) ∧
    (0 ≤ s → s ≤ 1 → 0 ≤ fuzzConf (some s) ∧ fuzzConf (some s) ≤ 1) ∧
    (s = 0 → fuzzConf (some s) = 4/5) ∧
    fuzzConf none = 4/5 := by
  refine ⟨?_, ?_, ?_, rfl⟩
  · intro h
    simp only [fullTextConf, fuzzConf]
    rw [if_neg h]
    exact ⟨rfl, rfl⟩
  · intro h0 h1
    simp only [fuzzConf]
    by_cases h : s = 0
    · rw [if_pos h]; norm_num
    · rw [if_neg h]; constructor <;> linarith
  · intro h
    simp only [fuzzConf]
    rw [if_pos h]

/-- Claim C5 (witness): the conversion at score 1/2. -/
theorem C5_witness :
    fuzzConf (some (1/2)) = 1 - 1/2 ∧
    fullTextConf (some (1/2)) = (1 - 1/2) * (9/10) ∧
    0 ≤ fuzzConf (some (1/2)) ∧ fuzzConf (some (1/2)) ≤ 1 :=
  ⟨((C5_theorem (1/2)).1 (by norm_num)).1,
   ((C5_theorem (1/2)).1 (by norm_num)).2,
   ((C5_theorem (1/2)).2.1 (by norm_num) (by norm_num)).1,
   ((C5_theorem (1/2)).2.1 (by norm_num) (by norm_num)).2⟩

/-- Claim C6 (counterexample): the global-fallback US boost is uncapped: a
cross-listed company on AMEX/TSX with an exact (confidence 1.0) match gets
confidence `1.0 × 1.05 = 1.05 > 1` and that value survives to the final
output. -/
theorem C6_counterexample :
    findStockTickersMatches c6Catalog noFuzzy c2Input (chars "global") (3/10) 5
      = [⟨fooA, 21/20⟩] ∧ (1 : ℚ) < 21/20 := by decide

/-- Claim C7: the confidence-threshold filter keeps a match whose confidence
equals the threshold, drops every match strictly below it, and every match in
the final deduplicated output has confidence at least the threshold. -/
theorem C7_theorem :
    (∀ (l : List MatchResult) (t : ℚ) (m : MatchResult),
        m ∈ l → m.confidence = t → m ∈ thresholdFilter t l) ∧
    (∀ (l : List MatchResult) (t : ℚ) (m : MatchResult),
        m.confidence < t → m ∉ thresholdFilter t l) ∧
    (∀ (stockList : List StockInfo) (fuzzy : FuzzyEngine) (input location : Str)
        (t : ℚ) (maxResults : Nat) (m : MatchResult),
        m ∈ findStockTickersMatches stockList fuzzy input location t maxResults →
        t ≤ m.confidence) := by
  refine ⟨?_, ?_, ?_⟩
  · intro l t m hm hc
    unfold thresholdFilter
    exact List.mem_filter.mpr ⟨hm, by simp [hc]⟩
  · intro l t m hc hmem
    unfold thresholdFilter at hmem
    have := (List.mem_filter.mp hmem).2
    simp only [decide_eq_true_eq] at this
    exact absurd this (not_le.mpr hc)
  · intro stockList fuzzy input location t maxResults m h
    exact findStockTickersMatches_conf_ge stockList fuzzy input location t
      maxResults m h

/-- Claim C7 (witness): a match at exactly the threshold is kept, one strictly
below is dropped, and a concrete pipeline output respects the threshold. -/
theorem C7_witness :
    (⟨acme, 3/10⟩ : MatchResult) ∈ thresholdFilter (3/10) [⟨acme, 3/10⟩] ∧
    (⟨acme, 1/5⟩ : MatchResult) ∉ thresholdFilter (3/10) [⟨acme, 1/5⟩] ∧
    (3/10 : ℚ) ≤ (⟨fooN, 99/100⟩ : MatchResult).confidence :=
  ⟨C7_theorem.1 [⟨acme, 3/10⟩] (3/10) ⟨acme, 3/10⟩ (by decide) (by decide),
   C7_theorem.2.1 [⟨acme, 1/5⟩] (3/10) ⟨acme, 1/5⟩ (by decide),
   C7_theorem.2.2 c2Catalog noFuzzy c2Input (chars "US") (3/10) 5
     ⟨fooN, 99/100⟩ (by decide)⟩


/-- Claim C6 (amended): every capped boost stays at its cap (0.99, 0.98, 0.95
— all strictly below 1), and on a group of confidences within [0,1] the
cross-listing stage produces confidences at most 21/20, the excess over 1
occurring only on US listings hit by the uncapped global-fallback
multiplication by 1.05. -/
theorem C6_theorem :
    (∀ cap mult c : ℚ, cappedBoost cap mult c ≤ cap) ∧
    (∀ (ctx : GroupCtx) (group : List MatchResult),
      (∀ r ∈ group, 0 ≤ r.confidence ∧ r.confidence ≤ 1) →
      ∀ m ∈ (processGroup ctx group).1,
        m.confidence ≤ 21/20 ∧ (isUSListing m = false → m.confidence ≤ 1)) := by
  constructor
  · exact fun cap mult c => cappedBoost_le cap mult c
  · intro ctx group hg m hm
    have hone : ∀ {x : MatchResult}, x.confidence ≤ 1 →
        x.confidence ≤ 21/20 ∧ (isUSListing x = false → x.confidence ≤ 1) := by
      intro x hx
      exact ⟨by linarith, fun _ => hx⟩
    have harr0 : ∀ r ∈ sortCmp (listingCmp ctx.inputTokens) group,
        r.confidence ≤ 1 := fun r hr => (hg r (mem_sortCmp.mp hr)).2
    simp only [processGroup] at hm
    split at hm
    · exact hone ((hg m hm).2)
    · split at hm
      · exact hone (mapGetD_conf_le_one harr0 hm)
      · split at hm
        · exact processGroupHints_bound ctx true _ _
            (boostAt_le_one (by norm_num) harr0) m hm
        · exact processGroupHints_bound ctx false [] _ harr0 m hm

/-- Claim C6 (witness): a concrete group on AMEX/TSX with unit confidences,
where the non-US listing keeps confidence at most 1. -/
theorem C6_witness :
    (⟨fooT, 1⟩ : MatchResult).confidence ≤ 21/20 ∧
    (isUSListing ⟨fooT, 1⟩ = false → (⟨fooT, 1⟩ : MatchResult).confidence ≤ 1) :=
  C6_theorem.2 ⟨[], [], false, false, false, chars "global"⟩
    [⟨fooA, 1⟩, ⟨fooT, 1⟩] (by decide) ⟨fooT, 1⟩ (by decide)

/-- Claim C8 (amended): resolution never changes the catalog fields of the
records in the symbol map — symbol, name, price, exchange codes and type are
preserved by `findDirectMatches` — but the match metadata is written onto the
records themselves, not carried outside (see the counterexample). -/
theorem C8_theorem :
    (∀ (store : List Stock) (entities : List Str) (loc : SupportedLocation),
      ((findDirectMatches store entities loc).1).map coreFields
        = store.map coreFields) ∧
    (∀ r : StockSearchResult, coreFields (tagFuzzy r) = coreFields r.item) := by
  constructor
  · intro store entities loc
    unfold findDirectMatches
    suffices h : ∀ (es : List Str) (acc : List Stock × List Stock),
        ((es.foldl
          (fun acc e =>
            match storeLookup acc.1 (upper e) with
            | none => acc
            | some s =>
              if stockMatchesLocation s loc then
                let s2 := { s with directSymbolMatch := some true, matchScore := some 0 }
                (storeUpdate acc.1 (upper e) s2, acc.2 ++ [s2])
              else acc)
          acc).1).map coreFields = (acc.1).map coreFields by
      exact h entities (store, [])
    intro es
    induction es with
    | nil => intro acc; rfl
    | cons e rest ih =>
      intro acc
      simp only [List.foldl_cons]
      rw [ih]
      cases hl : storeLookup acc.1 (upper e) with
      | none => simp [hl]
      | some sfound =>
        by_cases hm : stockMatchesLocation sfound loc
        · simp only [hl, hm, if_pos]
          exact storeUpdate_map_core _ _ _
            (fun s hs => by rw [hl] at hs; cases hs; rfl)
        · simp [hl, hm]
  · intro r
    rfl

/-- Claim C8 (counterexample): a resolution call mutates the record held in
the catalog symbol map: after `findDirectMatches` the stored record carries
the `_directSymbolMatch` / `_matchScore` side-channel fields. -/
theorem C8_counterexample :
    (findDirectMatches [appleStock] [chars "AAPL"] SupportedLocation.GLOBAL).1
      ≠ [appleStock] ∧
    (findDirectMatches [appleStock] [chars "AAPL"] SupportedLocation.GLOBAL).1
      = [{ appleStock with directSymbolMatch := some true, matchScore := some 0 }] := by
  decide

/-- Claim C9: one fuzzy-search call contributes at most one stock — the
wrapper returns a list of length at most one, and a resolved hit carries the
minimal engine score of its partition. -/
theorem C9_theorem :
    (∀ (engine : FuzeEngine) (query : Str) (location : SupportedLocation)
        (lang : SupportedLanguage) (tq : Option Str),
        (searchStocks engine query location lang tq).length ≤ 1) ∧
    (∀ (engine : FuzeEngine) (query : Str) (location : SupportedLocation)
        (r : StockSearchResult),
        fuzeSearch engine query location = some r →
        ∃ s, r.score = some s ∧
          r.item ∈ (engine location query).map Prod.fst ∧
          ∀ h ∈ engine location query, s ≤ h.2) := by
  constructor
  · intro engine query location lang tq
    simp only [searchStocks]
    split <;> simp
  · intro engine query location r hr
    unfold fuzeSearch at hr
    cases hs : sortCmp (fun a b => a.2 - b.2) (engine location query) with
    | nil => rw [hs] at hr; exact absurd hr (by simp)
    | cons hd tl =>
      rw [hs] at hr
      simp only [Option.some.injEq] at hr
      subst hr
      have hmem : hd ∈ engine location query := by
        have hx : hd ∈ sortCmp (fun a b => a.2 - b.2) (engine location query) := by
          rw [hs]; exact List.mem_cons_self _ _
        exact mem_sortCmp.mp hx
      refine ⟨hd.2, rfl, List.mem_map_of_mem Prod.fst hmem, ?_⟩
      intro h hh
      have hpw := sortCmp_pairwise_key (fun p => p.2) (engine location query)
      rw [hs] at hpw
      have hall := (List.pairwise_cons.mp hpw).1
      have hx : h ∈ sortCmp (fun a b => a.2 - b.2) (engine location query) :=
        mem_sortCmp.mpr hh
      rw [hs] at hx
      rcases List.mem_cons.mp hx with rfl | htl
      · exact le_refl _
      · exact hall h htl

/-- Claim C9 (witness): on a two-hit partition, the resolved hit is the one
with the smaller score. -/
theorem C9_witness :
    (searchStocks c9Engine (chars "acme") SupportedLocation.GLOBAL
      SupportedLanguage.en none).length ≤ 1 ∧
    (∃ s, (⟨acmeStockB, some (1/5)⟩ : StockSearchResult).score = some s ∧
      (⟨acmeStockB, some (1/5)⟩ : StockSearchResult).item ∈
        (c9Engine SupportedLocation.GLOBAL (chars "acme")).map Prod.fst ∧
      ∀ h ∈ c9Engine SupportedLocation.GLOBAL (chars "acme"), s ≤ h.2) :=
  ⟨C9_theorem.1 c9Engine (chars "acme") SupportedLocation.GLOBAL
     SupportedLanguage.en none,
   C9_theorem.2 c9Engine (chars "acme") SupportedLocation.GLOBAL
     ⟨acmeStockB, some (1/5)⟩ (by decide)⟩

/-- Claim C10: with a GLOBAL scope and no market hint detected in the
translated query, the fuzzy-search partition is chosen from the selected
language (zh-CN queries the CN partition, zh-TW the HK partition), and two
calls differing only in the language can return different stocks. -/
theorem C10_theorem :
    (∀ (engine : FuzeEngine) (query tq : Str), tqTruthy (some tq) = true →
      detectMarketFocus tq = none →
      searchStocks engine query SupportedLocation.GLOBAL SupportedLanguage.zhCN (some tq)
        = (match fuzeSearch engine query SupportedLocation.CN with
           | some r => [r]
           | none => []) ∧
      searchStocks engine query SupportedLocation.GLOBAL SupportedLanguage.zhTW (some tq)
        = (match fuzeSearch engine query SupportedLocation.HK with
           | some r => [r]
           | none => [])) ∧
    searchStocks c10Engine (chars "acme") SupportedLocation.GLOBAL
        SupportedLanguage.zhCN (some c10tq)
      ≠ searchStocks c10Engine (chars "acme") SupportedLocation.GLOBAL
        SupportedLanguage.zhTW (some c10tq) := by
  constructor
  · intro engine query tq ht hd
    constructor <;> simp only [searchStocks, ht, hd, Option.getD] <;> rfl
  · decide

/-- Claim C10 (witness): the redirect equalities at a concrete hint-free
translated query. -/
theorem C10_witness :
    searchStocks c10Engine (chars "acme") SupportedLocation.GLOBAL
        SupportedLanguage.zhCN (some c10tq)
      = (match fuzeSearch c10Engine (chars "acme") SupportedLocation.CN with
         | some r => [r]
         | none => []) ∧
    searchStocks c10Engine (chars "acme") SupportedLocation.GLOBAL
        SupportedLanguage.zhTW (some c10tq)
      = (match fuzeSearch c10Engine (chars "acme") SupportedLocation.HK with
         | some r => [r]
         | none => []) :=
  C10_theorem.1 c10Engine (chars "acme") c10tq (by decide) (by decide)

end TickerRes
